import Mathlib

/-!
Verification of the Wordle implementation (`src/src/lib.rs` and
`src/corpus/src/main.rs`) against its natural-language specification.

Words are modelled as lists of byte values (`List Nat`); Rust panics
(assertion failures, out-of-bounds indexing, integer-subtraction overflow)
are modelled as `Except` errors.
-/

set_option maxRecDepth 4000

instance {ε α : Type} [DecidableEq ε] [DecidableEq α] : DecidableEq (Except ε α)
  | Except.ok x, Except.ok y =>
    if h : x = y then isTrue (by rw [h]) else isFalse (fun hc => by cases hc; exact h rfl)
  | Except.ok _, Except.error _ => isFalse (fun hc => by cases hc)
  | Except.error _, Except.ok _ => isFalse (fun hc => by cases hc)
  | Except.error e, Except.error f =>
    if h : e = f then isTrue (by rw [h]) else isFalse (fun hc => by cases hc; exact h rfl)

/-- A word is a sequence of byte values (Rust `&str` viewed through `as_bytes`). -/
abbrev Word := List Nat

/-- Per-position feedback tag (`Correctness` in `lib.rs`). -/
inductive Correctness
  | Correct
  | Misplaced
  | Wrong
  deriving DecidableEq, Fintype

/-- The ways `Correctness::compute` / `Guess::matches` can panic:
`lengthViolation` for the `assert_eq!(len, 5)` checks, `charsetViolation`
for the subtraction-overflow / out-of-bounds panic when `byte - b'a'` is
used to index the 26-entry counter array and the byte is outside `[a-z]`. -/
inductive EncodeError
  | lengthViolation
  | charsetViolation
  deriving DecidableEq

/-- A byte is a valid counter index exactly when it lies in `[a-z]`
(`b'a' = 97`, `b'z' = 122`); otherwise `byte - b'a'` panics (debug:
subtraction overflow; release: the wrapped value is `≥ 26`, out of bounds). -/
def letterIndex (b : Nat) : Option Nat :=
  if 97 ≤ b ∧ b ≤ 122 then some (b - 97) else none

/-- Increment the per-letter counter at index `j` (`misplaced[j] += 1`).
The counters stay `≤ 10` for 5-byte words, so `u8` arithmetic is exact. -/
def bump (cnt : Nat → Nat) (j : Nat) : Nat → Nat :=
  fun k => if k = j then cnt j + 1 else cnt k

/-- First pass of `Correctness::compute` (lib.rs lines 46-54): walk answer and
guess in lockstep; equal bytes are marked `Correct`, for differing positions
the counter of the ANSWER byte is incremented and the slot stays `Wrong`. -/
def firstPass : List Nat → List Nat → (Nat → Nat) →
    Except EncodeError (List Correctness × (Nat → Nat))
  | [], [], cnt => Except.ok ([], cnt)
  | a :: as, g :: gs, cnt =>
    if a = g then
      match firstPass as gs cnt with
      | Except.ok (cs, cnt') => Except.ok (Correctness.Correct :: cs, cnt')
      | Except.error e => Except.error e
    else
      match letterIndex a with
      | none => Except.error EncodeError.charsetViolation
      | some j =>
        match firstPass as gs (bump cnt j) with
        | Except.ok (cs, cnt') => Except.ok (Correctness.Wrong :: cs, cnt')
        | Except.error e => Except.error e
  | _, _, _ => Except.error EncodeError.lengthViolation

/-- Second pass of `Correctness::compute` (lib.rs lines 56-61): for each guess
position still `Wrong`, look up the counter of the GUESS byte; if positive,
mark `Misplaced` and — exactly as the source does — INCREMENT the counter
(`misplaced[(guess - b'a')] += 1`, lib.rs line 59). -/
def secondPass : List Nat → List Correctness → (Nat → Nat) →
    Except EncodeError (List Correctness × (Nat → Nat))
  | [], [], cnt => Except.ok ([], cnt)
  | g :: gs, c :: cs, cnt =>
    if c = Correctness.Wrong then
      match letterIndex g with
      | none => Except.error EncodeError.charsetViolation
      | some j =>
        if cnt j > 0 then
          match secondPass gs cs (bump cnt j) with
          | Except.ok (cs', cnt') => Except.ok (Correctness.Misplaced :: cs', cnt')
          | Except.error e => Except.error e
        else
          match secondPass gs cs cnt with
          | Except.ok (cs', cnt') => Except.ok (Correctness.Wrong :: cs', cnt')
          | Except.error e => Except.error e
    else
      match secondPass gs cs cnt with
      | Except.ok (cs', cnt') => Except.ok (c :: cs', cnt')
      | Except.error e => Except.error e
  | _, _, _ => Except.error EncodeError.lengthViolation

/-- `Correctness::compute` (lib.rs lines 36-63): length asserts, then the two
passes over a fresh all-zero counter array. -/
def Correctness.compute (answer guess : Word) : Except EncodeError (List Correctness) :=
  if answer.length = 5 then
    if guess.length = 5 then
      match firstPass answer guess (fun _ => 0) with
      | Except.error e => Except.error e
      | Except.ok (cs, cnt) =>
        match secondPass guess cs cnt with
        | Except.error e => Except.error e
        | Except.ok (cs', _) => Except.ok cs'
    else Except.error EncodeError.lengthViolation
  else Except.error EncodeError.lengthViolation

example : Correctness.compute [97, 98, 99, 100, 101] [97, 98, 99, 100, 101] =
    Except.ok [Correctness.Correct, Correctness.Correct, Correctness.Correct,
      Correctness.Correct, Correctness.Correct] := by decide

example : Correctness.compute [101, 97, 98, 99, 100] [97, 98, 99, 100, 101] =
    Except.ok [Correctness.Misplaced, Correctness.Misplaced, Correctness.Misplaced,
      Correctness.Misplaced, Correctness.Misplaced] := by decide

example : Correctness.compute [97, 98, 99, 100, 101] [97, 97, 98, 98, 98] =
    Except.ok [Correctness.Correct, Correctness.Wrong, Correctness.Misplaced,
      Correctness.Misplaced, Correctness.Misplaced] := by decide

/-- A played guess together with its feedback mask (`Guess` in lib.rs). -/
structure Guess where
  word : Word
  mask : List Correctness
  deriving DecidableEq

/-- `Correctness::is_misplaced` (lib.rs lines 26-34): scan `answer` for the
first not-yet-used position holding `letter`; if found, mark it used and
return `true`, threading the updated `used` flags. -/
def isMisplaced (letter : Nat) : List Nat → List Bool → Bool × List Bool
  | [], used => (false, used)
  | _ :: _, [] => (false, [])
  | a :: as, u :: us =>
    if a = letter ∧ u = false then (true, true :: us)
    else
      let r := isMisplaced letter as us
      (r.1, u :: r.2)

/-- First loop of `Guess::matches` (lib.rs lines 107-116): positions where
candidate and guess word agree must be `Correct` in the mask (marking them
used), positions where they differ must not be `Correct`; `none` models the
early `return false`. -/
def checkCorrect : List Nat → List Nat → List Correctness → Option (List Bool)
  | a :: as, g :: gs, c :: cs =>
    if a = g then
      if c = Correctness.Correct then
        Option.map (fun u => true :: u) (checkCorrect as gs cs)
      else none
    else
      if c = Correctness.Correct then none
      else Option.map (fun u => false :: u) (checkCorrect as gs cs)
  | _, _, _ => some []

/-- Second loop of `Guess::matches` (lib.rs lines 118-125): for every
non-`Correct` mask slot, `is_misplaced` on the candidate must agree with
whether the slot is `Misplaced`. -/
def checkMisplacedLoop : List Nat → List Correctness → List Nat → List Bool → Bool
  | g :: gs, e :: es, word, used =>
    if e = Correctness.Correct then checkMisplacedLoop gs es word used
    else
      let r := isMisplaced g word used
      let m : Bool := if e = Correctness.Misplaced then true else false
      if r.1 = m then checkMisplacedLoop gs es word r.2 else false
  | _, _, _, _ => true

/-- `Guess::matches` (lib.rs lines 101-127): length asserts, then the two
letter-accounting loops over a fresh all-false `used` array. -/
def Guess.matches (self : Guess) (word : Word) : Except EncodeError Bool :=
  if word.length = 5 then
    if self.word.length = 5 then
      match checkCorrect word self.word self.mask with
      | none => Except.ok false
      | some used => Except.ok (checkMisplacedLoop self.word self.mask word used)
    else Except.error EncodeError.lengthViolation
  else Except.error EncodeError.lengthViolation

example : Guess.matches ⟨[97, 98, 99, 100, 101],
    [Correctness.Correct, Correctness.Correct, Correctness.Correct,
     Correctness.Correct, Correctness.Correct]⟩ [97, 98, 99, 100, 101] =
    Except.ok true := by decide

example : Guess.matches ⟨[97, 97, 98, 98, 98],
    [Correctness.Correct, Correctness.Wrong, Correctness.Misplaced,
     Correctness.Misplaced, Correctness.Misplaced]⟩ [97, 98, 99, 100, 101] =
    Except.ok false := by decide

/-- `MAX_MASK_ENUM` (lib.rs line 8): the oversized `5^5` constant. -/
def MAX_MASK_ENUM : Nat := 5 * 5 * 5 * 5 * 5

/-- The radix-3 digit of one `Correctness` value used by the packing fold
(lib.rs lines 75-79). -/
def correctnessDigit : Correctness → Nat
  | Correctness.Correct => 0
  | Correctness.Misplaced => 1
  | Correctness.Wrong => 2

/-- The most-significant-first radix-3 fold of `PacketCorrectness::from`
(lib.rs lines 73-80); the accumulator is a `u8`, hence the `% 256`. -/
def packFold (mask : List Correctness) : Nat :=
  mask.foldl (fun acc c => (acc * 3 + correctnessDigit c) % 256) 0

/-- `PacketCorrectness::from` (lib.rs lines 71-83): fold, add one in `u8`
arithmetic, wrap in `NonZeroU8::new` (`none` models the `unwrap` panic). -/
def packetCorrectnessFrom (mask : List Correctness) : Option Nat :=
  let v := (packFold mask + 1) % 256
  if v = 0 then none else some v

/-- `u8::from(PacketCorrectness)` (lib.rs lines 85-89): `get() - 1` in
wrapping `u8` arithmetic (the stored value is never 0). -/
def packetToU8 (v : Nat) : Nat := (v + 255) % 256

/-- The state digit at a given radix-3 place of a packed code. -/
def digitToCorrectness (d : Nat) : Correctness :=
  if d = 0 then Correctness.Correct
  else if d = 1 then Correctness.Misplaced
  else Correctness.Wrong

/-- Modelled from the spec: the repository declares `mod solver` but the
solver source file is absent, and no `unpack` function appears in the visible
sources. The spec states that `pack` and `unpack` are pure, total, inverse
functions over the 243-element domain with digits Correct=0, Misplaced=1,
Wrong=2; this is the inverse of the most-significant-first fold of
`PacketCorrectness::from`. -/
def unpack (code : Nat) : List Correctness :=
  [digitToCorrectness (code / 81 % 3), digitToCorrectness (code / 27 % 3),
   digitToCorrectness (code / 9 % 3), digitToCorrectness (code / 3 % 3),
   digitToCorrectness (code % 3)]

example : unpack (packFold [Correctness.Wrong, Correctness.Correct,
    Correctness.Misplaced, Correctness.Wrong, Correctness.Correct]) =
    [Correctness.Wrong, Correctness.Correct, Correctness.Misplaced,
     Correctness.Wrong, Correctness.Correct] := by decide

/-- The panics that can abort `Wordle::play`: the dictionary-membership
assert (lib.rs lines 154-158, carrying the offending word exactly as the
panic message does) and a panic inside `Correctness::compute`. -/
inductive PlayError
  | illegalGuess (w : Word)
  | encodeFailure (e : EncodeError)
  deriving DecidableEq

/-- The observable outcome of `Wordle::play`: the returned `Option<usize>`,
the arguments of the `finish` calls made on the guesser, and the final
history vector. -/
structure PlayResult where
  outcome : Option Nat
  finishCalls : List Nat
  history : List Guess
  deriving DecidableEq

/-- The loop body of `Wordle::play` (lib.rs lines 148-164), with `fuel`
iterations left and the current 1-based round number `round`. The guesser is
a function of the history, as in `guesser.guess(&history)`. -/
def playFrom (dict : List Word) (answer : Word) (guesser : List Guess → Word) :
    Nat → Nat → List Guess → Except PlayError PlayResult
  | 0, _, history => Except.ok ⟨none, [], history⟩
  | fuel + 1, round, history =>
    let g := guesser history
    if g = answer then Except.ok ⟨some round, [round], history⟩
    else if g ∈ dict then
      match Correctness.compute answer g with
      | Except.error e => Except.error (PlayError.encodeFailure e)
      | Except.ok mask => playFrom dict answer guesser fuel (round + 1) (history ++ [⟨g, mask⟩])
    else Except.error (PlayError.illegalGuess g)

/-- `Wordle::play` (lib.rs lines 144-166): `for i in 1..=32` over an empty
initial history; the dictionary is the parameter built in `Wordle::new`. -/
def Wordle.play (dict : List Word) (answer : Word) (guesser : List Guess → Word) :
    Except PlayError PlayResult :=
  playFrom dict answer guesser 32 1 []

example : Wordle.play [] [97, 98, 99, 100, 101] (fun _ => [97, 98, 99, 100, 101]) =
    Except.ok ⟨some 1, [1], []⟩ := by decide

example : Wordle.play [[97, 97, 97, 97, 97]] [97, 98, 99, 100, 101]
    (fun _ => [98, 98, 98, 98, 98]) =
    Except.error (PlayError.illegalGuess [98, 98, 98, 98, 98]) := by decide

/-!
The frequency builder (`src/corpus/src/main.rs`). Input files are modelled
as lists of raw byte lines (the chunks `read_until(b'\n')` yields); the
`DICTIONARY` asset baked in by `include_str!` is a parameter. The word-count
map is modelled as an association list in place of the `HashMap` (lookup and
update address the first matching key).
-/

/-- Panics that abort the per-file loop of the corpus builder: the
`expect("every row has three fields")` on a missing count column and the
`assert!(matches!(digit, b'0'..=b'9'))` on a non-digit count byte
(main.rs lines 55 and 59). -/
inductive CorpusError
  | missingCountField
  | nonDigitByte
  deriving DecidableEq

/-- The count arithmetic of the corpus builder is `usize` arithmetic; the
model targets a 64-bit platform, so every add and multiply wraps modulo
`2^64` as in release builds (debug builds abort at the same operations
instead of wrapping). -/
def usizeSize : Nat := 18446744073709551616

/-- The digit loop of main.rs lines 56-63: walk the count bytes from the
least significant end, asserting each is a decimal digit; `value` and `dec`
are `usize`, so `value += digit * dec` and `dec *= 10` wrap modulo `2^64`. -/
def parseDigitsRev : List Nat → Nat → Nat → Except CorpusError Nat
  | [], value, _ => Except.ok value
  | d :: ds, value, dec =>
    if 48 ≤ d ∧ d ≤ 57 then
      parseDigitsRev ds ((value + (d - 48) * dec % usizeSize) % usizeSize)
        (dec * 10 % usizeSize)
    else Except.error CorpusError.nonDigitByte

/-- The digit loop with exact (unbounded) arithmetic: the mathematical
decimal value the wrapped loop reduces modulo `2^64`. Used only to state
what the counts are; the code is modelled by `parseDigitsRev`. -/
def parseDigitsRevP : List Nat → Nat → Nat → Except CorpusError Nat
  | [], value, _ => Except.ok value
  | d :: ds, value, dec =>
    if 48 ≤ d ∧ d ≤ 57 then parseDigitsRevP ds (value + (d - 48) * dec) (dec * 10)
    else Except.error CorpusError.nonDigitByte

/-- Parse one tab-field into a count (main.rs lines 53-65): split on `,`,
take the second column, parse it as decimal. -/
def parseCountField (field : List Nat) : Except CorpusError Nat :=
  match (field.splitOn 44).get? 1 with
  | none => Except.error CorpusError.missingCountField
  | some count => parseDigitsRev count.reverse 0 1

/-- Exact-arithmetic mirror of `parseCountField`. -/
def parseCountFieldP (field : List Nat) : Except CorpusError Nat :=
  match (field.splitOn 44).get? 1 with
  | none => Except.error CorpusError.missingCountField
  | some count => parseDigitsRevP count.reverse 0 1

/-- `matches!(c, b'a'..=b'z' | b'A'..=b'Z')` (main.rs line 46). -/
def isAlphaByte (b : Nat) : Bool :=
  decide ((65 ≤ b ∧ b ≤ 90) ∨ (97 ≤ b ∧ b ≤ 122))

/-- `make_ascii_lowercase` on one byte (main.rs line 50). -/
def toLowerByte (b : Nat) : Nat := if 65 ≤ b ∧ b ≤ 90 then b + 32 else b

/-- The word token of a line (main.rs lines 34-40): first tab-field, then
the part before the first underscore. `List.splitOn` never returns an empty
list, so the two fallback arms are unreachable, like the source's
`expect("every line should have a word")`. -/
def lineWord (line : List Nat) : List Nat :=
  match line.splitOn 9 with
  | [] => []
  | w :: _ =>
    match w.splitOn 95 with
    | [] => w
    | h :: _ => h

/-- The remaining tab-fields of a line after the word token. -/
def lineRest (line : List Nat) : List (List Nat) :=
  match line.splitOn 9 with
  | [] => []
  | _ :: rest => rest

/-- The key lookup of the word-count map (`HashMap::get` on the first
matching key of the association list). -/
def lookupW : List (Word × Nat) → Word → Option Nat
  | [], _ => none
  | (k, v) :: rest, w => if k = w then some v else lookupW rest w

/-- Add `add` to the value stored under `w` (the `*accum += count` /
`entry().or_insert(0) += count` update on the first matching key); the
values are `usize`, so the add wraps modulo `2^64`. -/
def updateAssoc : List (Word × Nat) → Word → Nat → List (Word × Nat)
  | [], _, _ => []
  | (k, v) :: rest, w, add =>
    if k = w then (k, (v + add) % usizeSize) :: rest
    else (k, v) :: updateAssoc rest w add

/-- The word a line is counted towards, if any (main.rs lines 34-50):
the word token, kept only when it has exactly 5 alphabetic bytes, lowercased. -/
def extractWord (line : List Nat) : Option Word :=
  let w0 := lineWord line
  if w0.length = 5 ∧ w0.all isAlphaByte then some (w0.map toLowerByte) else none

/-- Parse every remaining tab-field of a line (the `fields.map(...)` part of
main.rs lines 52-66; a parse panic in any field aborts the line's run). -/
def parseFields : List (List Nat) → Except CorpusError (List Nat)
  | [] => Except.ok []
  | f :: fs =>
    match parseCountField f with
    | Except.error e => Except.error e
    | Except.ok c =>
      match parseFields fs with
      | Except.error e => Except.error e
      | Except.ok cs => Except.ok (c :: cs)

/-- Exact-arithmetic mirror of `parseFields`. -/
def parseFieldsP : List (List Nat) → Except CorpusError (List Nat)
  | [] => Except.ok []
  | f :: fs =>
    match parseCountFieldP f with
    | Except.error e => Except.error e
    | Except.ok c =>
      match parseFieldsP fs with
      | Except.error e => Except.error e
      | Except.ok cs => Except.ok (c :: cs)

/-- `Iterator::sum` over `usize` values: a left fold of wrapping adds. -/
def sumUsize (xs : List Nat) : Nat :=
  xs.foldl (fun acc c => (acc + c) % usizeSize) 0

/-- The summed count carried by one line (main.rs lines 52-66): parse every
remaining tab-field and sum in `usize` arithmetic. -/
def lineCountE (line : List Nat) : Except CorpusError Nat :=
  match parseFields (lineRest line) with
  | Except.error e => Except.error e
  | Except.ok counts => Except.ok (sumUsize counts)

/-- The exact (unbounded) summed count carried by one line: what the wrapped
`lineCountE` reduces modulo `2^64`. -/
def lineCountP (line : List Nat) : Except CorpusError Nat :=
  match parseFieldsP (lineRest line) with
  | Except.error e => Except.error e
  | Except.ok counts => Except.ok counts.sum

/-- One iteration of the per-file line loop (main.rs lines 26-69): extract
the word token, skipping the line unless it has exactly 5 alphabetic bytes
(lowercased); if it is a key of the map, sum the parsed counts of the
remaining fields into its entry. -/
def processLine (words : List (Word × Nat)) (line : List Nat) :
    Except CorpusError (List (Word × Nat)) :=
  match extractWord line with
  | none => Except.ok words
  | some w =>
    if (lookupW words w).isSome then
      match lineCountE line with
      | Except.error e => Except.error e
      | Except.ok count => Except.ok (updateAssoc words w count)
    else Except.ok words

/-- The per-file map (main.rs lines 16-71): start from every dictionary word
at count 0 and fold the line loop over the file's lines. -/
def processFile (dict : List Word) (lines : List (List Nat)) :
    Except CorpusError (List (Word × Nat)) :=
  lines.foldlM processLine (dict.map (fun w => (w, 0)))

/-- One step of the cross-file merge (main.rs lines 72-77):
`*map1.entry(word).or_insert(0) += count`, a wrapping `usize` add onto the
present value or onto a freshly inserted 0. -/
def insertAdd (m : List (Word × Nat)) (e : Word × Nat) : List (Word × Nat) :=
  if (lookupW m e.1).isSome then updateAssoc m e.1 e.2
  else m ++ [(e.1, (0 + e.2) % usizeSize)]

/-- Merge a file's map into the accumulator by summation. -/
def mergeMaps (m1 m2 : List (Word × Nat)) : List (Word × Nat) :=
  m2.foldl insertAdd m1

/-- The parallel map of main.rs lines 15-71, sequentialized: one word-count
map per input file (a panic in any file aborts the whole run). -/
def mapFiles (dict : List Word) : List (List (List Nat)) →
    Except CorpusError (List (List (Word × Nat)))
  | [] => Except.ok []
  | f :: fs =>
    match processFile dict f with
    | Except.error e => Except.error e
    | Except.ok fm =>
      match mapFiles dict fs with
      | Except.error e => Except.error e
      | Except.ok ms => Except.ok (fm :: ms)

/-- The parallel map-reduce of main.rs lines 15-77, sequentialized: process
every file, then fold the merges over an empty accumulator (`HashMap::new`). -/
def runCorpus (dict : List Word) (files : List (List (List Nat))) :
    Except CorpusError (List (Word × Nat)) :=
  match mapFiles dict files with
  | Except.error e => Except.error e
  | Except.ok maps => Except.ok (maps.foldl mergeMaps [])

/-- The output loop (main.rs lines 79-87): one `(word, count)` pair per
dictionary line in order, where the count is the stored value unless it is
absent or zero (`and_then(NonZeroUsize::new)...unwrap_or(1)`), in which case
it is 1. -/
def corpusOutput (dict : List Word) (files : List (List (List Nat))) :
    Except CorpusError (List (Word × Nat)) :=
  match runCorpus dict files with
  | Except.error e => Except.error e
  | Except.ok m => Except.ok (dict.map (fun w => (w,
      match lookupW m w with
      | some v => if v = 0 then 1 else v
      | none => 1)))

/-- The exact contribution of one line to the total of word `w` (spec-side:
unbounded arithmetic). -/
def lineContribTo (w : Word) (line : List Nat) : Nat :=
  match extractWord line, lineCountP line with
  | some w', Except.ok c => if w' = w then c else 0
  | _, _ => 0

/-- The counts of word `w` summed exactly across all matching lines of all
files (the claim's summation; the program computes it modulo `2^64`). -/
def totalCount (w : Word) (files : List (List (List Nat))) : Nat :=
  (files.map (fun lines => (lines.map (lineContribTo w)).sum)).sum

example : corpusOutput [[104, 101, 108, 108, 111]]
    [[[104, 101, 108, 108, 111, 9, 50, 48, 50, 48, 44, 51, 44, 49, 10]]] =
    Except.ok [([104, 101, 108, 108, 111], 3)] := by decide

example : corpusOutput [[104, 101, 108, 108, 111]] [] =
    Except.ok [([104, 101, 108, 108, 111], 1)] := by decide

/-!
Theorems for the claims.
-/

/-- Number of guess positions holding `letter` that the mask marks
`Misplaced`. -/
def countMisplacedOf (letter : Nat) (guess : Word) (mask : List Correctness) : Nat :=
  (guess.zip mask).countP (fun p => decide (p.1 = letter ∧ p.2 = Correctness.Misplaced))

/-- Number of occurrences of `letter` in the answer at positions where the
guess does not match (the positions not marked `Correct`). -/
def unmatchedOccurrences (letter : Nat) (answer guess : Word) : Nat :=
  (answer.zip guess).countP (fun p => decide (p.1 = letter ∧ p.1 ≠ p.2))

/-- C1: the second pass of `Correctness::compute` INCREMENTS the counter on
each `Misplaced` mark (`misplaced[(guess - b'a')] += 1`, lib.rs line 59)
instead of decrementing it, so the number of `Misplaced` marks can exceed
the unmatched occurrences of the letter in the answer: for answer `abcde`
and guess `aabbb` it marks three positions `Misplaced` for the letter `b`
although the answer holds only one unmatched `b`. -/
theorem compute_second_pass_overcounts_misplaced :
    Correctness.compute [97, 98, 99, 100, 101] [97, 97, 98, 98, 98] =
      Except.ok [Correctness.Correct, Correctness.Wrong, Correctness.Misplaced,
        Correctness.Misplaced, Correctness.Misplaced] ∧
    countMisplacedOf 98 [97, 97, 98, 98, 98]
      [Correctness.Correct, Correctness.Wrong, Correctness.Misplaced,
        Correctness.Misplaced, Correctness.Misplaced] = 3 ∧
    unmatchedOccurrences 98 [97, 98, 99, 100, 101] [97, 97, 98, 98, 98] = 1 := by decide

/-- C2: `Guess::matches` does not agree with `Correctness::compute`: for
candidate `abcde` and guess `xaaaa`, `compute(candidate, guess)` yields
`[W,M,M,M,M]`, yet `matches` on that very record rejects the candidate
(the letter-accounting in `matches` uses correct used-flag bookkeeping while
`compute` over-credits repeated letters). -/
theorem matches_disagrees_with_compute :
    Correctness.compute [97, 98, 99, 100, 101] [120, 97, 97, 97, 97] =
      Except.ok [Correctness.Wrong, Correctness.Misplaced, Correctness.Misplaced,
        Correctness.Misplaced, Correctness.Misplaced] ∧
    Guess.matches ⟨[120, 97, 97, 97, 97],
      [Correctness.Wrong, Correctness.Misplaced, Correctness.Misplaced,
       Correctness.Misplaced, Correctness.Misplaced]⟩ [97, 98, 99, 100, 101] =
      Except.ok false := by decide

/-- C3: the true answer can be filtered out by its own computed mask: for
answer `abcde` and guess `bbbaa`, `compute` yields `[W,C,W,M,M]` but
`matches` on the record built from exactly that mask rejects the answer. -/
theorem matches_filters_out_true_answer :
    Correctness.compute [97, 98, 99, 100, 101] [98, 98, 98, 97, 97] =
      Except.ok [Correctness.Wrong, Correctness.Correct, Correctness.Wrong,
        Correctness.Misplaced, Correctness.Misplaced] ∧
    Guess.matches ⟨[98, 98, 98, 97, 97],
      [Correctness.Wrong, Correctness.Correct, Correctness.Wrong,
       Correctness.Misplaced, Correctness.Misplaced]⟩ [97, 98, 99, 100, 101] =
      Except.ok false := by decide

/-- C5: whenever the guesser returns a word that differs from the answer and
is not in the dictionary, the play loop terminates at once with a
contract-violation error carrying the offending word — it neither skips the
guess nor retries the round. -/
theorem play_illegal_guess_error (dict : List Word) (answer : Word)
    (guesser : List Guess → Word) (fuel round : Nat) (history : List Guess)
    (hne : guesser history ≠ answer) (hnd : guesser history ∉ dict) :
    playFrom dict answer guesser (fuel + 1) round history =
      Except.error (PlayError.illegalGuess (guesser history)) := by
  simp [playFrom, hne, hnd]

/-- Witness for C5 at a concrete dictionary, answer and guesser. -/
theorem play_illegal_guess_error_witness :
    Wordle.play [[97, 97, 97, 97, 97]] [97, 98, 99, 100, 101]
      (fun _ => [98, 98, 98, 98, 98]) =
      Except.error (PlayError.illegalGuess [98, 98, 98, 98, 98]) :=
  play_illegal_guess_error [[97, 97, 97, 97, 97]] [97, 98, 99, 100, 101]
    (fun _ => [98, 98, 98, 98, 98]) 31 1 [] (by decide) (by decide)

/-- C8: equality with the answer is tested before the dictionary-membership
assert: with any dictionary whatsoever (in particular one not containing the
answer), a guess equal to the answer wins the round immediately. -/
theorem play_checks_answer_before_dictionary (dict : List Word) (answer : Word)
    (guesser : List Guess → Word) (fuel round : Nat) (history : List Guess)
    (hwin : guesser history = answer) :
    playFrom dict answer guesser (fuel + 1) round history =
      Except.ok ⟨some round, [round], history⟩ := by
  simp [playFrom, hwin]

/-- Witness for C8: the answer is not in the (empty) dictionary, yet guessing
it wins round 1. -/
theorem play_checks_answer_before_dictionary_witness :
    Wordle.play [] [97, 98, 99, 100, 101] (fun _ => [97, 98, 99, 100, 101]) =
      Except.ok ⟨some 1, [1], []⟩ ∧ [97, 98, 99, 100, 101] ∉ ([] : List Word) :=
  ⟨play_checks_answer_before_dictionary [] [97, 98, 99, 100, 101]
    (fun _ => [97, 98, 99, 100, 101]) 31 1 [] rfl, by decide⟩

/-- C6: the radix-3 fold of `PacketCorrectness::from` maps the 243 five-slot
masks bijectively onto `0 .. 3^5 - 1`, and the (spec-modelled) `unpack` is
its two-sided inverse on that domain. -/
theorem pack_unpack_inverse_bijective :
    (∀ a b c d e : Correctness, unpack (packFold [a, b, c, d, e]) = [a, b, c, d, e]) ∧
    (∀ k : Fin 243, packFold (unpack k.val) = k.val) ∧
    (∀ a b c d e : Correctness, packFold [a, b, c, d, e] < 243) := by decide

/-- C10: for every 5-slot mask the radix-3 fold stays in `0 ..= 242`, so the
`u8` increment neither wraps nor produces zero, `NonZeroU8::new(..).unwrap()`
always succeeds, and `u8::from` recovers exactly the folded code. -/
theorem packet_from_never_panics :
    ∀ a b c d e : Correctness,
      packFold [a, b, c, d, e] ≤ 242 ∧
      (packFold [a, b, c, d, e] + 1) % 256 = packFold [a, b, c, d, e] + 1 ∧
      packetCorrectnessFrom [a, b, c, d, e] = some (packFold [a, b, c, d, e] + 1) ∧
      packetToU8 (packFold [a, b, c, d, e] + 1) = packFold [a, b, c, d, e] := by decide

/-- The mark the first pass leaves at one position. -/
def firstMark (p : Nat × Nat) : Correctness :=
  if p.1 = p.2 then Correctness.Correct else Correctness.Wrong

/-- When every differing position's answer byte is in `[a-z]`, the first
pass succeeds and marks exactly the agreeing positions `Correct`. -/
theorem firstPass_ok_of : ∀ (a g : List Nat) (cnt : Nat → Nat), a.length = g.length →
    (∀ p ∈ a.zip g, p.1 ≠ p.2 → 97 ≤ p.1 ∧ p.1 ≤ 122) →
    ∃ cnt2, firstPass a g cnt = Except.ok ((a.zip g).map firstMark, cnt2)
  | [], [], cnt, _, _ => ⟨cnt, rfl⟩
  | [], _ :: _, _, hlen, _ => by simp at hlen
  | _ :: _, [], _, hlen, _ => by simp at hlen
  | a :: as, g :: gs, cnt, hlen, hb => by
    have hlen2 : as.length = gs.length := by simpa using hlen
    have hb2 : ∀ p ∈ as.zip gs, p.1 ≠ p.2 → 97 ≤ p.1 ∧ p.1 ≤ 122 :=
      fun p hp => hb p (List.mem_cons_of_mem _ hp)
    by_cases heq : a = g
    · obtain ⟨cnt2, ih⟩ := firstPass_ok_of as gs cnt hlen2 hb2
      exact ⟨cnt2, by simp [firstPass, heq, ih, firstMark]⟩
    · have hr := hb (a, g) (by simp) heq
      have hli : letterIndex a = some (a - 97) := by simp [letterIndex, hr.1, hr.2]
      obtain ⟨cnt2, ih⟩ := firstPass_ok_of as gs (bump cnt (a - 97)) hlen2 hb2
      exact ⟨cnt2, by simp [firstPass, heq, hli, ih, firstMark]⟩

/-- A differing position whose answer byte is outside `[a-z]` makes the
first pass fail with the charset panic. -/
theorem firstPass_error_of : ∀ (a g : List Nat) (cnt : Nat → Nat),
    (∃ p ∈ a.zip g, p.1 ≠ p.2 ∧ ¬(97 ≤ p.1 ∧ p.1 ≤ 122)) →
    firstPass a g cnt = Except.error EncodeError.charsetViolation
  | [], _, _, hex => by simp at hex
  | _ :: _, [], _, hex => by simp at hex
  | a :: as, g :: gs, cnt, hex => by
    obtain ⟨p, hp, hne, hoor⟩ := hex
    rcases List.mem_cons.mp (by simpa using hp) with hpe | hpt
    · subst hpe
      simp only at hne hoor
      have hli : letterIndex a = none := by simp [letterIndex, hoor]
      simp [firstPass, hne, hli]
    · by_cases heq : a = g
      · have ih := firstPass_error_of as gs cnt ⟨p, hpt, hne, hoor⟩
        simp [firstPass, heq, ih]
      · by_cases ha : 97 ≤ a ∧ a ≤ 122
        · have hli : letterIndex a = some (a - 97) := by simp [letterIndex, ha.1, ha.2]
          have ih := firstPass_error_of as gs (bump cnt (a - 97)) ⟨p, hpt, hne, hoor⟩
          simp [firstPass, heq, hli, ih]
        · have hli : letterIndex a = none := by simp [letterIndex, ha]
          simp [firstPass, heq, hli]

/-- When every still-`Wrong` position's guess byte is in `[a-z]`, the
second pass succeeds. -/
theorem secondPass_ok_of : ∀ (g : List Nat) (cs : List Correctness) (cnt : Nat → Nat),
    g.length = cs.length →
    (∀ p ∈ g.zip cs, p.2 = Correctness.Wrong → 97 ≤ p.1 ∧ p.1 ≤ 122) →
    ∃ out, secondPass g cs cnt = Except.ok out
  | [], [], cnt, _, _ => ⟨([], cnt), rfl⟩
  | [], _ :: _, _, hlen, _ => by simp at hlen
  | _ :: _, [], _, hlen, _ => by simp at hlen
  | g :: gs, c :: cs, cnt, hlen, hb => by
    have hlen2 : gs.length = cs.length := by simpa using hlen
    have hb2 : ∀ p ∈ gs.zip cs, p.2 = Correctness.Wrong → 97 ≤ p.1 ∧ p.1 ≤ 122 :=
      fun p hp => hb p (List.mem_cons_of_mem _ hp)
    by_cases hc : c = Correctness.Wrong
    · have hg := hb (g, c) (by simp) hc
      have hli : letterIndex g = some (g - 97) := by simp [letterIndex, hg.1, hg.2]
      by_cases hpos : cnt (g - 97) > 0
      · obtain ⟨⟨cs2, cnt2⟩, ih⟩ := secondPass_ok_of gs cs (bump cnt (g - 97)) hlen2 hb2
        exact ⟨(Correctness.Misplaced :: cs2, cnt2), by simp [secondPass, hc, hli, hpos, ih]⟩
      · obtain ⟨⟨cs2, cnt2⟩, ih⟩ := secondPass_ok_of gs cs cnt hlen2 hb2
        exact ⟨(Correctness.Wrong :: cs2, cnt2), by simp [secondPass, hc, hli, hpos, ih]⟩
    · obtain ⟨⟨cs2, cnt2⟩, ih⟩ := secondPass_ok_of gs cs cnt hlen2 hb2
      exact ⟨(c :: cs2, cnt2), by simp [secondPass, hc, ih]⟩

/-- A still-`Wrong` position whose guess byte is outside `[a-z]` makes the
second pass fail with the charset panic. -/
theorem secondPass_error_of : ∀ (g : List Nat) (cs : List Correctness) (cnt : Nat → Nat),
    (∃ p ∈ g.zip cs, p.2 = Correctness.Wrong ∧ ¬(97 ≤ p.1 ∧ p.1 ≤ 122)) →
    secondPass g cs cnt = Except.error EncodeError.charsetViolation
  | [], _, _, hex => by simp at hex
  | _ :: _, [], _, hex => by simp at hex
  | g :: gs, c :: cs, cnt, hex => by
    obtain ⟨p, hp, hw, hoor⟩ := hex
    rcases List.mem_cons.mp (by simpa using hp) with hpe | hpt
    · subst hpe
      simp only at hw hoor
      have hli : letterIndex g = none := by simp [letterIndex, hoor]
      simp [secondPass, hw, hli]
    · by_cases hc : c = Correctness.Wrong
      · by_cases hg : 97 ≤ g ∧ g ≤ 122
        · have hli : letterIndex g = some (g - 97) := by simp [letterIndex, hg.1, hg.2]
          by_cases hpos : cnt (g - 97) > 0
          · have ih := secondPass_error_of gs cs (bump cnt (g - 97)) ⟨p, hpt, hw, hoor⟩
            simp [secondPass, hc, hli, hpos, ih]
          · have ih := secondPass_error_of gs cs cnt ⟨p, hpt, hw, hoor⟩
            simp [secondPass, hc, hli, hpos, ih]
        · have hli : letterIndex g = none := by simp [letterIndex, hg]
          simp [secondPass, hc, hli]
      · have ih := secondPass_error_of gs cs cnt ⟨p, hpt, hw, hoor⟩
        simp [secondPass, hc, ih]

/-- Zipping the guess with the first pass's marks is the same as mapping
over the answer-guess pairs. -/
theorem zip_snd_map {γ : Type} (f : Nat × Nat → γ) :
    ∀ (a g : List Nat), a.length = g.length →
      g.zip ((a.zip g).map f) = (a.zip g).map (fun q => (q.2, f q))
  | [], [], _ => rfl
  | [], _ :: _, hlen => by simp at hlen
  | _ :: _, [], hlen => by simp at hlen
  | a :: as, g :: gs, hlen => by
    have hlen2 : as.length = gs.length := by simpa using hlen
    simp [zip_snd_map f as gs hlen2]

/-- C7 (amended): `Correctness::compute` fails fast with a length-violation
error when either word is not exactly 5 bytes; under correct lengths it
fails with the charset panic exactly when some position where answer and
guess DIFFER holds a byte outside `[a-z]`, and returns normally otherwise —
out-of-range bytes at agreeing positions are never consulted and cause no
failure. -/
theorem compute_failfast_characterization (a g : Word) :
    ((a.length ≠ 5 ∨ g.length ≠ 5) →
      Correctness.compute a g = Except.error EncodeError.lengthViolation) ∧
    (a.length = 5 → g.length = 5 →
      ((Correctness.compute a g = Except.error EncodeError.charsetViolation) ↔
        ∃ p ∈ a.zip g, p.1 ≠ p.2 ∧
          (¬(97 ≤ p.1 ∧ p.1 ≤ 122) ∨ ¬(97 ≤ p.2 ∧ p.2 ≤ 122))) ∧
      ((¬∃ p ∈ a.zip g, p.1 ≠ p.2 ∧
          (¬(97 ≤ p.1 ∧ p.1 ≤ 122) ∨ ¬(97 ≤ p.2 ∧ p.2 ≤ 122))) →
        ∃ m, Correctness.compute a g = Except.ok m)) := by
  constructor
  · intro hl
    rcases hl with h | h
    · simp [Correctness.compute, h]
    · by_cases ha : a.length = 5
      · simp [Correctness.compute, ha, h]
      · simp [Correctness.compute, ha]
  · intro ha hg
    have hlen : a.length = g.length := by rw [ha, hg]
    by_cases hA : ∃ p ∈ a.zip g, p.1 ≠ p.2 ∧ ¬(97 ≤ p.1 ∧ p.1 ≤ 122)
    · have herr := firstPass_error_of a g (fun _ => 0) hA
      have hcomp : Correctness.compute a g = Except.error EncodeError.charsetViolation := by
        simp [Correctness.compute, ha, hg, herr]
      obtain ⟨p, hp, hne, hoor⟩ := hA
      refine ⟨⟨fun _ => ⟨p, hp, hne, Or.inl hoor⟩, fun _ => hcomp⟩, ?_⟩
      intro hno
      exact absurd ⟨p, hp, hne, Or.inl hoor⟩ hno
    · push_neg at hA
      obtain ⟨cnt2, h1⟩ := firstPass_ok_of a g (fun _ => 0) hlen hA
      have hzip : g.zip ((a.zip g).map firstMark) =
          (a.zip g).map (fun q => (q.2, firstMark q)) := zip_snd_map firstMark a g hlen
      have hcslen : g.length = ((a.zip g).map firstMark).length := by
        simp [List.length_zip, hlen]
      by_cases hB : ∃ p ∈ a.zip g, p.1 ≠ p.2 ∧ ¬(97 ≤ p.2 ∧ p.2 ≤ 122)
      · obtain ⟨p, hp, hne, hoor⟩ := hB
        have hmem : (p.2, firstMark p) ∈ g.zip ((a.zip g).map firstMark) := by
          rw [hzip]
          exact List.mem_map_of_mem _ hp
        have hfp : firstMark p = Correctness.Wrong := by simp [firstMark, hne]
        have herr2 := secondPass_error_of g ((a.zip g).map firstMark) cnt2
          ⟨(p.2, firstMark p), hmem, hfp, hoor⟩
        have hcomp : Correctness.compute a g = Except.error EncodeError.charsetViolation := by
          simp [Correctness.compute, ha, hg, h1, herr2]
        refine ⟨⟨fun _ => ⟨p, hp, hne, Or.inr hoor⟩, fun _ => hcomp⟩, ?_⟩
        intro hno
        exact absurd ⟨p, hp, hne, Or.inr hoor⟩ hno
      · push_neg at hB
        have hcond : ∀ q ∈ g.zip ((a.zip g).map firstMark),
            q.2 = Correctness.Wrong → 97 ≤ q.1 ∧ q.1 ≤ 122 := by
          rw [hzip]
          intro q hq hqw
          obtain ⟨p, hp, hpe⟩ := List.mem_map.mp hq
          subst hpe
          simp only at hqw
          have hne : p.1 ≠ p.2 := by
            intro hcontra
            rw [firstMark, if_pos hcontra] at hqw
            exact absurd hqw (by simp)
          exact hB p hp hne
        obtain ⟨⟨cs2, cnt3⟩, h2⟩ :=
          secondPass_ok_of g ((a.zip g).map firstMark) cnt2 hcslen hcond
        have hcomp : Correctness.compute a g = Except.ok cs2 := by
          simp [Correctness.compute, ha, hg, h1, h2]
        refine ⟨⟨?_, ?_⟩, fun _ => ⟨cs2, hcomp⟩⟩
        · intro hcontra
          rw [hcomp] at hcontra
          exact absurd hcontra (by simp)
        · intro hex
          obtain ⟨p, hp, hne, hoor⟩ := hex
          rcases hoor with hoa | hog
          · exact absurd (hA p hp hne) hoa
          · exact absurd (hB p hp hne) hog

/-- Witness for C7's amended theorem: a charset failure forced through the
characterization at a concrete differing-position input, and a length
failure at a 3-byte word. -/
theorem compute_failfast_characterization_witness :
    Correctness.compute [97, 66, 99, 100, 101] [97, 98, 99, 100, 101] =
      Except.error EncodeError.charsetViolation ∧
    Correctness.compute [97, 98, 99] [97, 98, 99, 100, 101] =
      Except.error EncodeError.lengthViolation := by
  constructor
  · exact ((compute_failfast_characterization [97, 66, 99, 100, 101]
      [97, 98, 99, 100, 101]).2 rfl rfl).1.mpr (by decide)
  · exact (compute_failfast_characterization [97, 98, 99]
      [97, 98, 99, 100, 101]).1 (Or.inl (by decide))

/-- A well-formed word: exactly 5 bytes, all in `[a-z]`. -/
def wfWord (w : Word) : Prop :=
  w.length = 5 ∧ ∀ b ∈ w, 97 ≤ b ∧ b ≤ 122

instance (w : Word) : Decidable (wfWord w) :=
  inferInstanceAs (Decidable (w.length = 5 ∧ ∀ b ∈ w, 97 ≤ b ∧ b ≤ 122))

/-- On well-formed inputs `Correctness::compute` never panics. -/
theorem compute_ok_of_wf (a g : Word) (ha : wfWord a) (hg : wfWord g) :
    ∃ m, Correctness.compute a g = Except.ok m := by
  have hlen : a.length = g.length := by rw [ha.1, hg.1]
  have hAcond : ∀ p ∈ a.zip g, p.1 ≠ p.2 → 97 ≤ p.1 ∧ p.1 ≤ 122 := by
    intro p hp _
    obtain ⟨x, y⟩ := p
    exact ha.2 x (List.of_mem_zip hp).1
  obtain ⟨cnt2, h1⟩ := firstPass_ok_of a g (fun _ => 0) hlen hAcond
  have hcslen : g.length = ((a.zip g).map firstMark).length := by
    simp [List.length_zip, hlen]
  have hcond : ∀ q ∈ g.zip ((a.zip g).map firstMark),
      q.2 = Correctness.Wrong → 97 ≤ q.1 ∧ q.1 ≤ 122 := by
    intro q hq _
    obtain ⟨x, y⟩ := q
    exact hg.2 x (List.of_mem_zip hq).1
  obtain ⟨⟨cs2, cnt3⟩, h2⟩ := secondPass_ok_of g ((a.zip g).map firstMark) cnt2 hcslen hcond
  exact ⟨cs2, by simp [Correctness.compute, ha.1, hg.1, h1, h2]⟩

/-- Invariant of the play loop's history: the record at index `k` holds the
guess the guesser produced on the first `k` records, that guess differs from
the answer, and its mask is the one `Correctness::compute` produced. -/
def histInv (answer : Word) (guesser : List Guess → Word) (hist : List Guess) : Prop :=
  ∀ (k : Nat) (hk : k < hist.length),
    (hist.get ⟨k, hk⟩).word = guesser (hist.take k) ∧
    (hist.get ⟨k, hk⟩).word ≠ answer ∧
    Correctness.compute answer (hist.get ⟨k, hk⟩).word = Except.ok (hist.get ⟨k, hk⟩).mask

/-- Appending the record of a non-winning round preserves the history
invariant. -/
theorem histInv_append (answer : Word) (guesser : List Guess → Word) (hist : List Guess)
    (m : List Correctness) (hinv : histInv answer guesser hist)
    (hne : guesser hist ≠ answer)
    (hm : Correctness.compute answer (guesser hist) = Except.ok m) :
    histInv answer guesser (hist ++ [⟨guesser hist, m⟩]) := by
  intro k hk
  have hklen : k < hist.length + 1 := by simpa using hk
  by_cases hlt : k < hist.length
  · have hget : (hist ++ [(⟨guesser hist, m⟩ : Guess)]).get ⟨k, hk⟩ = hist.get ⟨k, hlt⟩ :=
      List.get_append k hlt
    have htake : (hist ++ [(⟨guesser hist, m⟩ : Guess)]).take k = hist.take k :=
      List.take_append_of_le_length (by omega)
    rw [hget, htake]
    exact hinv k hlt
  · have hkeq : k = hist.length := by omega
    subst hkeq
    have hget : (hist ++ [(⟨guesser hist, m⟩ : Guess)]).get ⟨hist.length, hk⟩ =
        ⟨guesser hist, m⟩ := by simp [List.get_eq_getElem]
    have htake : (hist ++ [(⟨guesser hist, m⟩ : Guess)]).take hist.length = hist :=
      List.take_left hist _
    rw [hget, htake]
    exact ⟨rfl, hne, hm⟩

/-- Induction core for C4: from any reachable state, a legal well-formed
guesser drives the loop to a normal result whose outcome and history satisfy
the round characterization. -/
theorem playFrom_spec (dict : List Word) (answer : Word) (guesser : List Guess → Word)
    (hA : wfWord answer) (hD : ∀ w ∈ dict, wfWord w)
    (hG : ∀ h, guesser h ≠ answer → guesser h ∈ dict) :
    ∀ (fuel : Nat) (hist : List Guess), histInv answer guesser hist →
      ∃ r, playFrom dict answer guesser fuel (hist.length + 1) hist = Except.ok r ∧
        histInv answer guesser r.history ∧
        ((∃ i, r.outcome = some i ∧ r.finishCalls = [i] ∧ i = r.history.length + 1 ∧
            hist.length < i ∧ i ≤ hist.length + fuel ∧ guesser r.history = answer) ∨
          (r.outcome = none ∧ r.finishCalls = [] ∧ r.history.length = hist.length + fuel)) := by
  intro fuel
  induction fuel with
  | zero =>
    intro hist hinv
    exact ⟨⟨none, [], hist⟩, rfl, hinv, Or.inr ⟨rfl, rfl, by simp⟩⟩
  | succ fuel ih =>
    intro hist hinv
    by_cases hwin : guesser hist = answer
    · refine ⟨⟨some (hist.length + 1), [hist.length + 1], hist⟩, ?_, hinv,
        Or.inl ⟨hist.length + 1, rfl, rfl, rfl, Nat.lt_succ_self _, by omega, hwin⟩⟩
      simp [playFrom, hwin]
    · have hdict : guesser hist ∈ dict := hG hist hwin
      have hwfg : wfWord (guesser hist) := hD _ hdict
      obtain ⟨m, hm⟩ := compute_ok_of_wf answer (guesser hist) hA hwfg
      have hinv2 : histInv answer guesser (hist ++ [⟨guesser hist, m⟩]) :=
        histInv_append answer guesser hist m hinv hwin hm
      obtain ⟨r, hr, hrinv, hcase⟩ := ih (hist ++ [⟨guesser hist, m⟩]) hinv2
      refine ⟨r, ?_, hrinv, ?_⟩
      · have hstep : playFrom dict answer guesser (fuel + 1) (hist.length + 1) hist =
            playFrom dict answer guesser fuel (hist.length + 1 + 1)
              (hist ++ [⟨guesser hist, m⟩]) := by
          simp [playFrom, hwin, hdict, hm]
        rw [hstep]
        simpa [List.length_append] using hr
      · rcases hcase with ⟨i, ho, hf, hieq, hlow, hhigh, hwin2⟩ | ⟨ho, hf, hlen⟩
        · left
          refine ⟨i, ho, hf, hieq, ?_, ?_, hwin2⟩
          · simp [List.length_append] at hlow
            omega
          · simp [List.length_append] at hhigh
            omega
        · right
          refine ⟨ho, hf, ?_⟩
          simp [List.length_append] at hlen
          omega

/-- C4: with a well-formed answer and dictionary and a guesser that only
emits dictionary words when not guessing the answer, `Wordle::play` runs at
most 32 rounds: it returns `Some i` and calls `finish(i)` exactly when the
`i`-th guess (`1 ≤ i ≤ 32`) is the first equal to the answer, having
appended one record (that round's word and computed mask) per earlier
non-winning round; if no guess in 32 rounds equals the answer it returns
`None` normally, with 32 records and no `finish` call. -/
theorem play_rounds_characterization (dict : List Word) (answer : Word)
    (guesser : List Guess → Word) (hA : wfWord answer) (hD : ∀ w ∈ dict, wfWord w)
    (hG : ∀ h, guesser h ≠ answer → guesser h ∈ dict) :
    ∃ r, Wordle.play dict answer guesser = Except.ok r ∧
      histInv answer guesser r.history ∧
      ((∃ i, r.outcome = some i ∧ r.finishCalls = [i] ∧ 1 ≤ i ∧ i ≤ 32 ∧
          r.history.length = i - 1 ∧ guesser r.history = answer) ∨
        (r.outcome = none ∧ r.finishCalls = [] ∧ r.history.length = 32)) := by
  obtain ⟨r, hr, hrinv, hcase⟩ := playFrom_spec dict answer guesser hA hD hG 32 []
    (by intro k hk; simp at hk)
  refine ⟨r, hr, hrinv, ?_⟩
  rcases hcase with ⟨i, ho, hf, hieq, hlow, hhigh, hwin⟩ | ⟨ho, hf, hlen⟩
  · exact Or.inl ⟨i, ho, hf, by omega, by simpa using hhigh, by omega, hwin⟩
  · exact Or.inr ⟨ho, hf, by simpa using hlen⟩

/-- Witness for C4 at a concrete dictionary, answer and guesser (the guesser
wins in round 1). -/
theorem play_rounds_characterization_witness :
    ∃ r, Wordle.play [[97, 98, 99, 100, 101]] [97, 98, 99, 100, 101]
        (fun _ => [97, 98, 99, 100, 101]) = Except.ok r ∧
      histInv [97, 98, 99, 100, 101] (fun _ => [97, 98, 99, 100, 101]) r.history ∧
      ((∃ i, r.outcome = some i ∧ r.finishCalls = [i] ∧ 1 ≤ i ∧ i ≤ 32 ∧
          r.history.length = i - 1 ∧
          (fun _ => [97, 98, 99, 100, 101]) r.history = [97, 98, 99, 100, 101]) ∨
        (r.outcome = none ∧ r.finishCalls = [] ∧ r.history.length = 32)) :=
  play_rounds_characterization [[97, 98, 99, 100, 101]] [97, 98, 99, 100, 101]
    (fun _ => [97, 98, 99, 100, 101]) (by decide) (by decide)
    (fun h hne => absurd rfl hne)

/-- Wrapping the summands first does not change a wrapped sum. -/
theorem add_mod_helper (x y n : Nat) : (x % n + y % n) % n = (x + y) % n :=
  (Nat.mod_modEq x n).add (Nat.mod_modEq y n)

/-- The wrapped multiply-accumulate step of the digit loop computes the
exact step modulo the word size. -/
theorem add_mul_mod_helper (a b c n : Nat) :
    (a % n + b * (c % n) % n) % n = (a + b * c) % n :=
  (Nat.mod_modEq a n).add
    ((Nat.mod_modEq (b * (c % n)) n).trans ((Nat.mod_modEq c n).mul_left b))

/-- The wrapped `dec *= 10` step computes the exact step modulo the word
size. -/
theorem mul_mod_helper (c k n : Nat) : c % n * k % n = c * k % n :=
  (Nat.mod_modEq c n).mul_right k

/-- The wrapped digit loop returns the exact decimal value reduced modulo
`2^64` (wrapping is a ring homomorphism, so only the final value wraps). -/
theorem parseDigitsRev_eq : ∀ (ds : List Nat) (vp decp : Nat),
    parseDigitsRev ds (vp % usizeSize) (decp % usizeSize) =
      match parseDigitsRevP ds vp decp with
      | Except.error e => Except.error e
      | Except.ok x => Except.ok (x % usizeSize)
  | [], vp, decp => rfl
  | d :: ds, vp, decp => by
    by_cases hd : 48 ≤ d ∧ d ≤ 57
    · have e1 : (vp % usizeSize + (d - 48) * (decp % usizeSize) % usizeSize) % usizeSize =
          (vp + (d - 48) * decp) % usizeSize := add_mul_mod_helper vp (d - 48) decp usizeSize
      have e2 : decp % usizeSize * 10 % usizeSize = decp * 10 % usizeSize :=
        mul_mod_helper decp 10 usizeSize
      simp only [parseDigitsRev, parseDigitsRevP, if_pos hd]
      rw [e1, e2]
      exact parseDigitsRev_eq ds (vp + (d - 48) * decp) (decp * 10)
    · simp only [parseDigitsRev, parseDigitsRevP, if_neg hd]

/-- The wrapped count-field parse is the exact parse reduced modulo `2^64`. -/
theorem parseCountField_eq (field : List Nat) :
    parseCountField field =
      match parseCountFieldP field with
      | Except.error e => Except.error e
      | Except.ok x => Except.ok (x % usizeSize) := by
  unfold parseCountField parseCountFieldP
  cases h : (field.splitOn 44).get? 1 with
  | none => simp only [h]
  | some count =>
    simp only [h]
    have hp := parseDigitsRev_eq count.reverse 0 1
    rw [Nat.zero_mod] at hp
    rw [Nat.mod_eq_of_lt (by decide : (1 : Nat) < usizeSize)] at hp
    exact hp

/-- The wrapped field parses are the exact parses reduced modulo `2^64`. -/
theorem parseFields_eq : ∀ (fields : List (List Nat)),
    parseFields fields =
      match parseFieldsP fields with
      | Except.error e => Except.error e
      | Except.ok xs => Except.ok (xs.map (fun x => x % usizeSize))
  | [] => rfl
  | f :: fs => by
    simp only [parseFields, parseFieldsP]
    rw [parseCountField_eq f]
    cases parseCountFieldP f with
    | error e => rfl
    | ok x =>
      simp only []
      rw [parseFields_eq fs]
      cases parseFieldsP fs with
      | error e => rfl
      | ok xs => simp

/-- A wrapping left fold of reduced values computes the exact sum modulo
`2^64`. -/
theorem sumUsize_fold (xs : List Nat) : ∀ (a : Nat),
    List.foldl (fun acc c => (acc + c) % usizeSize) (a % usizeSize)
      (xs.map (fun x => x % usizeSize)) = (a + xs.sum) % usizeSize := by
  induction xs with
  | nil =>
    intro a
    simp
  | cons x xs ih =>
    intro a
    simp only [List.map_cons, List.foldl_cons]
    rw [add_mod_helper, ih (a + x), List.sum_cons, Nat.add_assoc]

/-- The wrapped per-line count is the exact per-line count reduced modulo
`2^64`. -/
theorem lineCountE_eq (line : List Nat) :
    lineCountE line =
      match lineCountP line with
      | Except.error e => Except.error e
      | Except.ok s => Except.ok (s % usizeSize) := by
  unfold lineCountE lineCountP
  rw [parseFields_eq]
  cases parseFieldsP (lineRest line) with
  | error e => rfl
  | ok xs =>
    show Except.ok (sumUsize (xs.map fun x => x % usizeSize)) =
      Except.ok (xs.sum % usizeSize)
    unfold sumUsize
    have h := sumUsize_fold xs 0
    rw [Nat.zero_mod] at h
    rw [h, Nat.zero_add]

/-- Lookup after an in-place add: the updated key reads the old value plus
the addend (wrapped), every other key is untouched. -/
theorem lookupW_updateAssoc : ∀ (m : List (Word × Nat)) (w : Word) (c : Nat) (w2 : Word),
    lookupW (updateAssoc m w c) w2 =
      if w2 = w then (lookupW m w).map (fun v => (v + c) % usizeSize) else lookupW m w2
  | [], w, c, w2 => by simp [updateAssoc, lookupW]
  | (k, v) :: rest, w, c, w2 => by
    by_cases hk : k = w
    · subst hk
      by_cases hw2 : w2 = k
      · subst hw2
        simp [updateAssoc, lookupW]
      · simp [updateAssoc, lookupW, hw2, Ne.symm hw2]
    · by_cases hw2 : w2 = k
      · subst hw2
        simp [updateAssoc, lookupW, hk]
      · simp [updateAssoc, lookupW, hk, hw2, Ne.symm hw2, lookupW_updateAssoc rest w c w2]

/-- One line adds exactly its (exact-arithmetic) contribution to a key's
running value modulo `2^64`. -/
theorem processLine_lookup (m : List (Word × Nat)) (line : List Nat)
    (m2 : List (Word × Nat)) (h : processLine m line = Except.ok m2) (w : Word) (vp : Nat)
    (hv : lookupW m w = some (vp % usizeSize)) :
    lookupW m2 w = some ((vp + lineContribTo w line) % usizeSize) := by
  unfold processLine at h
  cases hew : extractWord line with
  | none =>
    simp only [hew] at h
    injection h with h2
    subst h2
    have hc : lineContribTo w line = 0 := by simp [lineContribTo, hew]
    rw [hc, Nat.add_zero, hv]
  | some w2 =>
    simp only [hew] at h
    by_cases hs : (lookupW m w2).isSome
    · rw [if_pos hs] at h
      cases hle : lineCountE line with
      | error e =>
        rw [hle] at h
        exact absurd h (by simp)
      | ok c =>
        rw [hle] at h
        injection h with h2
        subst h2
        have hQ := lineCountE_eq line
        rw [hle] at hQ
        cases hlp : lineCountP line with
        | error e =>
          rw [hlp] at hQ
          exact absurd hQ (by simp)
        | ok p =>
          rw [hlp] at hQ
          injection hQ with hQ2
          have hcontrib : lineContribTo w line = if w2 = w then p else 0 := by
            simp [lineContribTo, hew, hlp]
          rw [lookupW_updateAssoc]
          by_cases hww : w = w2
          · rw [if_pos hww, ← hww, hv, hcontrib, if_pos hww.symm]
            simp [hQ2, add_mod_helper]
          · rw [if_neg hww, hv, hcontrib, if_neg (fun hh => hww hh.symm), Nat.add_zero]
    · rw [if_neg hs] at h
      injection h with h2
      subst h2
      by_cases hww : w = w2
      · rw [← hww] at hs
        rw [hv] at hs
        exact absurd (by simp) hs
      · have hcontrib : lineContribTo w line = 0 := by
          unfold lineContribTo
          rw [hew]
          cases lineCountP line with
          | error e => rfl
          | ok c =>
            simp only []
            rw [if_neg (fun hh => hww hh.symm)]
        rw [hcontrib, Nat.add_zero, hv]

/-- Folding the line loop over a file adds the summed exact per-line
contributions to a key's running value modulo `2^64`. -/
theorem foldProcess_lookup : ∀ (lines : List (List Nat)) (init m : List (Word × Nat)),
    List.foldlM processLine init lines = Except.ok m → ∀ (w : Word) (vp : Nat),
    lookupW init w = some (vp % usizeSize) →
    lookupW m w = some ((vp + (lines.map (lineContribTo w)).sum) % usizeSize)
  | [], init, m, h, w, vp, hv => by
    simp [pure, Except.pure] at h
    subst h
    simpa using hv
  | l :: ls, init, m, h, w, vp, hv => by
    rw [List.foldlM_cons] at h
    cases hpl : processLine init l with
    | error e =>
      simp [hpl, Bind.bind, Except.bind] at h
    | ok m1 =>
      simp only [hpl, Bind.bind, Except.bind] at h
      have h1 := processLine_lookup init l m1 hpl w vp hv
      have ih := foldProcess_lookup ls m1 m h w (vp + lineContribTo w l) h1
      rw [ih, List.map_cons, List.sum_cons, Nat.add_assoc]

/-- `updateAssoc` does not change the key list. -/
theorem updateAssoc_keys : ∀ (m : List (Word × Nat)) (w : Word) (c : Nat),
    (updateAssoc m w c).map Prod.fst = m.map Prod.fst
  | [], _, _ => rfl
  | (k, v) :: rest, w, c => by
    by_cases hk : k = w <;> simp [updateAssoc, hk, updateAssoc_keys rest w c]

/-- The line loop does not change the key list. -/
theorem processLine_keys (m : List (Word × Nat)) (line : List Nat)
    (m2 : List (Word × Nat)) (h : processLine m line = Except.ok m2) :
    m2.map Prod.fst = m.map Prod.fst := by
  unfold processLine at h
  cases hew : extractWord line with
  | none =>
    simp only [hew] at h
    injection h with h2
    rw [← h2]
  | some w2 =>
    simp only [hew] at h
    by_cases hs : (lookupW m w2).isSome
    · rw [if_pos hs] at h
      cases hle : lineCountE line with
      | error e =>
        rw [hle] at h
        exact absurd h (by simp)
      | ok c =>
        rw [hle] at h
        injection h with h2
        rw [← h2]
        exact updateAssoc_keys m w2 c
    · rw [if_neg hs] at h
      injection h with h2
      rw [← h2]

/-- Folding the line loop over a file does not change the key list. -/
theorem foldProcess_keys : ∀ (lines : List (List Nat)) (init m : List (Word × Nat)),
    List.foldlM processLine init lines = Except.ok m →
    m.map Prod.fst = init.map Prod.fst
  | [], init, m, h => by
    simp [pure, Except.pure] at h
    subst h
    rfl
  | l :: ls, init, m, h => by
    rw [List.foldlM_cons] at h
    cases hpl : processLine init l with
    | error e =>
      simp [hpl, Bind.bind, Except.bind] at h
    | ok m1 =>
      simp only [hpl, Bind.bind, Except.bind] at h
      rw [foldProcess_keys ls m1 m h, processLine_keys init l m1 hpl]

/-- Lookup in the fresh all-zero per-file map. -/
theorem lookupW_init : ∀ (dict : List Word) (w : Word),
    lookupW (dict.map fun x => (x, 0)) w = if w ∈ dict then some 0 else none
  | [], w => by simp [lookupW]
  | d :: ds, w => by
    by_cases hd : d = w
    · subst hd
      simp [lookupW]
    · simp [lookupW, hd, lookupW_init ds w, Ne.symm hd]

/-- Lookup skips over a map whose keys miss the target. -/
theorem lookupW_append_of_none : ∀ (m1 m2 : List (Word × Nat)) (w : Word),
    lookupW m1 w = none → lookupW (m1 ++ m2) w = lookupW m2 w
  | [], m2, w, _ => rfl
  | (k, v) :: rest, m2, w, h => by
    by_cases hk : k = w
    · simp [lookupW, hk] at h
    · simp only [lookupW, if_neg hk] at h ⊢
      exact lookupW_append_of_none rest m2 w h

/-- Lookup stops at the first map when it finds the key there. -/
theorem lookupW_append_of_some : ∀ (m1 m2 : List (Word × Nat)) (w : Word) (v : Nat),
    lookupW m1 w = some v → lookupW (m1 ++ m2) w = some v
  | [], _, _, _, h => by simp [lookupW] at h
  | (k, u) :: rest, m2, w, v, h => by
    by_cases hk : k = w
    · simp only [lookupW, if_pos hk] at h ⊢
      exact h
    · simp only [lookupW, if_neg hk] at h ⊢
      exact lookupW_append_of_some rest m2 w v h

/-- A key outside the key list looks up to nothing. -/
theorem lookupW_none_of_not_mem : ∀ (m : List (Word × Nat)) (w : Word),
    w ∉ m.map Prod.fst → lookupW m w = none
  | [], _, _ => rfl
  | (k, v) :: rest, w, hnm => by
    simp only [List.map_cons, List.mem_cons] at hnm
    push_neg at hnm
    simp [lookupW, Ne.symm hnm.1, lookupW_none_of_not_mem rest w hnm.2]

/-- Lookup after one merge step (`entry().or_insert(0) += count`, the add
wrapping modulo `2^64`). -/
theorem lookupW_insertAdd (m : List (Word × Nat)) (e : Word × Nat) (w : Word) :
    lookupW (insertAdd m e) w =
      if w = e.1 then some (((lookupW m e.1).getD 0 + e.2) % usizeSize)
      else lookupW m w := by
  obtain ⟨k, c⟩ := e
  simp only []
  unfold insertAdd
  simp only []
  by_cases hs : (lookupW m k).isSome
  · rw [if_pos hs, lookupW_updateAssoc]
    by_cases hw : w = k
    · rw [if_pos hw, if_pos hw]
      obtain ⟨v, hv⟩ := Option.isSome_iff_exists.mp hs
      rw [hv]
      simp
    · rw [if_neg hw, if_neg hw]
  · rw [if_neg hs]
    have hnone : lookupW m k = none := Option.not_isSome_iff_eq_none.mp hs
    by_cases hw : w = k
    · rw [if_pos hw, hw, lookupW_append_of_none m [(k, (0 + c) % usizeSize)] k hnone, hnone]
      simp [lookupW]
    · rw [if_neg hw]
      cases he : lookupW m w with
      | some v =>
        exact lookupW_append_of_some m [(k, (0 + c) % usizeSize)] w v he
      | none =>
        rw [lookupW_append_of_none m [(k, (0 + c) % usizeSize)] w he]
        simp [lookupW, Ne.symm hw]

/-- Lookup after merging a whole file map with distinct keys. -/
theorem lookupW_mergeMaps : ∀ (m2 m1 : List (Word × Nat)),
    (m2.map Prod.fst).Nodup → ∀ w,
    lookupW (mergeMaps m1 m2) w =
      match lookupW m2 w with
      | some c => some (((lookupW m1 w).getD 0 + c) % usizeSize)
      | none => lookupW m1 w
  | [], m1, _, w => by simp [mergeMaps, lookupW]
  | (k, c) :: es, m1, hnd, w => by
    have hnds : (es.map Prod.fst).Nodup := (List.nodup_cons.mp (by simpa using hnd)).2
    have hmem : k ∉ es.map Prod.fst := (List.nodup_cons.mp (by simpa using hnd)).1
    have hmerge : mergeMaps m1 ((k, c) :: es) = mergeMaps (insertAdd m1 (k, c)) es := rfl
    rw [hmerge, lookupW_mergeMaps es (insertAdd m1 (k, c)) hnds w]
    by_cases hw : w = k
    · rw [hw]
      have hes : lookupW es k = none := lookupW_none_of_not_mem es k hmem
      rw [hes]
      have hia := lookupW_insertAdd m1 (k, c) k
      simp at hia
      rw [hia]
      simp [lookupW]
    · have hcons : lookupW ((k, c) :: es) w = lookupW es w := by
        simp [lookupW, Ne.symm hw]
      rw [hcons]
      have hia := lookupW_insertAdd m1 (k, c) w
      simp [hw] at hia
      rw [hia]

/-- The key list of the fresh all-zero per-file map is the dictionary. -/
theorem map_fst_init (dict : List Word) :
    (dict.map fun x => (x, 0)).map Prod.fst = dict := by
  induction dict with
  | nil => rfl
  | cons d ds ih => simp [ih]

/-- Folding the cross-file merges accumulates the exact per-file totals of
each dictionary word modulo `2^64`. -/
theorem foldMerge_getD (dict : List Word) (hnd : dict.Nodup) :
    ∀ (files : List (List (List Nat))) (maps : List (List (Word × Nat)))
      (acc : List (Word × Nat)),
      mapFiles dict files = Except.ok maps →
      ∀ w, w ∈ dict → ∀ ap : Nat,
      (lookupW acc w).getD 0 = ap % usizeSize →
      (lookupW (maps.foldl mergeMaps acc) w).getD 0 =
        (ap + totalCount w files) % usizeSize
  | [], maps, acc, h, w, hw, ap, hacc => by
    unfold mapFiles at h
    injection h with h2
    subst h2
    simpa [totalCount] using hacc
  | f :: fs, maps, acc, h, w, hw, ap, hacc => by
    unfold mapFiles at h
    cases hpf : processFile dict f with
    | error e =>
      simp [hpf] at h
    | ok fm =>
      simp only [hpf] at h
      cases hms : mapFiles dict fs with
      | error e =>
        simp [hms] at h
      | ok ms =>
        simp only [hms] at h
        injection h with h2
        subst h2
        have hkeys : fm.map Prod.fst = dict := by
          have hk1 := foldProcess_keys f (dict.map fun x => (x, 0)) fm hpf
          rw [hk1]
          exact map_fst_init dict
        have hinit : lookupW (dict.map fun x => (x, 0)) w = some (0 % usizeSize) := by
          rw [lookupW_init, if_pos hw, Nat.zero_mod]
        have hfm : lookupW fm w =
            some ((0 + (f.map (lineContribTo w)).sum) % usizeSize) :=
          foldProcess_lookup f (dict.map fun x => (x, 0)) fm hpf w 0 hinit
        have hstep : (fm :: ms).foldl mergeMaps acc = ms.foldl mergeMaps (mergeMaps acc fm) :=
          rfl
        have hmm := lookupW_mergeMaps fm acc (by rw [hkeys]; exact hnd) w
        rw [hfm] at hmm
        have hacc2 : (lookupW (mergeMaps acc fm) w).getD 0 =
            (ap + (f.map (lineContribTo w)).sum) % usizeSize := by
          rw [hmm]
          simp only [Option.getD_some]
          rw [hacc, Nat.zero_add]
          exact add_mod_helper ap ((f.map (lineContribTo w)).sum) usizeSize
        rw [hstep, foldMerge_getD dict hnd fs ms (mergeMaps acc fm) hms w hw
          (ap + (f.map (lineContribTo w)).sum) hacc2]
        have ht : totalCount w (f :: fs) =
            (f.map (lineContribTo w)).sum + totalCount w fs := by
          simp [totalCount]
        rw [ht, ← Nat.add_assoc]

/-- C9: whenever the corpus builder completes normally and no word's exact
total reaches `2^64` (so the wrapping `usize` arithmetic is exact), its
output is one `(word, count)` pair per base-dictionary entry, in the
dictionary's original order, where the count is the word's counts summed
across all matching lines of all files, with 1 substituted whenever the
accumulated sum is zero (in particular when the word was never observed). -/
theorem corpus_output_characterization (dict : List Word) (files : List (List (List Nat)))
    (out : List (Word × Nat)) (hnd : dict.Nodup)
    (h : corpusOutput dict files = Except.ok out)
    (hbound : ∀ w ∈ dict, totalCount w files < usizeSize) :
    out = dict.map (fun w =>
      (w, if totalCount w files = 0 then 1 else totalCount w files)) := by
  unfold corpusOutput at h
  cases hrc : runCorpus dict files with
  | error e =>
    rw [hrc] at h
    exact absurd h (by simp)
  | ok m =>
    rw [hrc] at h
    injection h with h2
    rw [← h2]
    apply List.map_congr_left
    intro w hw
    unfold runCorpus at hrc
    cases hmaps : mapFiles dict files with
    | error e =>
      simp [hmaps] at hrc
    | ok maps =>
      simp only [hmaps] at hrc
      injection hrc with h3
      have hacc0 : (lookupW ([] : List (Word × Nat)) w).getD 0 = 0 % usizeSize := by
        simp [lookupW]
      have hg := foldMerge_getD dict hnd files maps [] hmaps w hw 0 hacc0
      rw [h3, Nat.zero_add, Nat.mod_eq_of_lt (hbound w hw)] at hg
      cases hl : lookupW m w with
      | none =>
        rw [hl] at hg
        simp only [Option.getD_none] at hg
        have ht : totalCount w files = 0 := hg.symm
        simp [hl, ht]
      | some v =>
        rw [hl] at hg
        simp only [Option.getD_some] at hg
        simp [hl, hg]

/-- Witness for C9: a one-word dictionary and a single file holding one
matching line with count 3, far below the overflow bound. -/
theorem corpus_output_characterization_witness :
    [([104, 101, 108, 108, 111], 3)] =
      [[104, 101, 108, 108, 111]].map (fun w =>
        (w, if totalCount w
              [[[104, 101, 108, 108, 111, 9, 50, 48, 50, 48, 44, 51, 44, 49, 10]]] = 0
            then 1
            else totalCount w
              [[[104, 101, 108, 108, 111, 9, 50, 48, 50, 48, 44, 51, 44, 49, 10]]])) :=
  corpus_output_characterization [[104, 101, 108, 108, 111]]
    [[[104, 101, 108, 108, 111, 9, 50, 48, 50, 48, 44, 51, 44, 49, 10]]]
    [([104, 101, 108, 108, 111], 3)] (by decide) (by decide) (by decide)

/-- Counterexample for C7: a word made of bytes outside `[a-z]` does not
make `Correctness::compute` fail when every such byte sits at a position
where answer and guess agree — uppercase `ABCDE` against itself returns
an all-`Correct` mask instead of a charset-violation error. -/
theorem compute_charset_not_always_error :
    Correctness.compute [65, 66, 67, 68, 69] [65, 66, 67, 68, 69] =
      Except.ok [Correctness.Correct, Correctness.Correct, Correctness.Correct,
        Correctness.Correct, Correctness.Correct] ∧
    ¬(97 ≤ 65 ∧ 65 ≤ 122) := by decide
